import Mathlib

/-!
# Verification of the folder-text-extractor core

Shallow embedding of `src/App.tsx`: the recursive filesystem-entry walker
(`processFileEntry`), the ASCII tree renderer (`generateTreeText`), the
content aggregator (`generateCombinedText`) and the drop handler
(`handleDrop`), together with proofs of the specification's claims.

The browser filesystem handed to the walker is modelled by `FsEntry`
(a file carries the `File` object's `name`, declared media `type`,
byte `size` and decoded text content; a directory carries its
enumerated children in reader order, the paginated reader being
materialised into one list).  The ambient `setShowSizeWarning` React
state is modelled by threading a boolean out of the traversal; the
maximum-file-size slider is the `maxFileSize` argument (in MiB).
-/

set_option maxRecDepth 8192

namespace FolderTextExtractor

/-- The `directoriesToIgnore` array of `App.tsx`, transcribed verbatim. -/
def directoriesToIgnore : List String :=
  [".git", ".svn", ".hg", "node_modules", "vendor", "bower_components",
   ".venv", "venv", "env", "virtualenv", "__pycache__", "target", "dist",
   "build", "out", ".idea", ".vscode", ".vs", ".env", ".env.local",
   ".env.development", ".env.production", ".config", ".settings", ".cache",
   ".tmp", "temp", "tmp", "bin", "obj", "coverage", ".nyc_output",
   "test-results", "docs", ".github", ".DS_Store", "Thumbs.db",
   ".terraform", ".serverless", ".next", ".nuxt", ".svelte-kit",
   ".angular", ".parcel-cache", ".yarn", ".pnp", ".yarn-integrity"]

/-- The extension allow-list from the `isTextFile` test in
`processFileEntry`, transcribed verbatim (including the duplicated
`.rs` entry). -/
def textExtensions : List String :=
  [".txt", ".md", ".js", ".jsx", ".ts", ".tsx", ".css", ".scss", ".less",
   ".html", ".htm", ".json", ".yaml", ".yml", ".xml", ".ps1", ".py",
   ".r", ".java", ".kt", ".scala", ".go", ".rs", ".php", ".rb", ".pl", ".sh",
   ".bash", ".zsh", ".fish", ".lua", ".sql", ".swift", ".m", ".h", ".c", ".cpp",
   ".hpp", ".cc", ".hh", ".cs", ".fs", ".vb", ".dart", ".elm", ".clj", ".cljs",
   ".edn", ".ex", ".exs", ".erl", ".hrl", ".ml", ".mli", ".fsi", ".fsx", ".v",
   ".sv", ".vhd", ".vhdl", ".tex", ".sty", ".cls", ".rd", ".rs", ".rlib",
   ".toml", ".ini", ".cfg", ".conf", ".env", ".dockerfile", ".gitignore",
   ".gitattributes", ".editorconfig", ".npmrc", ".yarnrc", ".babelrc",
   ".eslintrc", ".prettierrc", ".stylelintrc", ".htaccess", ".nginx",
   ".apache", ".log", ".diff", ".patch"]

/-- A browser `FileSystemEntry` as the walker observes it: a file exposes
the underlying `File`'s name, declared media type, byte size and decoded
text; a directory exposes its name and the full materialised listing its
paginated reader produces, in enumeration order. -/
inductive FsEntry : Type where
  | file (name fileType : String) (size : Nat) (content : String)
  | dir (name : String) (children : List FsEntry)

/-- Accessor `entry.name`. -/
def FsEntry.name : FsEntry → String
  | .file n _ _ _ => n
  | .dir n _ => n

/-- Accessor `entry.isDirectory`. -/
def FsEntry.isDirectory : FsEntry → Bool
  | .file _ _ _ _ => false
  | .dir _ _ => true

/-- The `FileEntry` interface of `App.tsx` as the walker populates it:
files get `name`, `path`, `content`, `size`, `isDirectory = false` and no
`children`; directories get `name`, `path`, `children`,
`isDirectory = true` and no `content`/`size`. -/
inductive FileEntry : Type where
  | file (name path content : String) (size : Nat)
  | dir (name path : String) (children : List FileEntry)

/-- Accessor `entry.name` of a produced node. -/
def FileEntry.name : FileEntry → String
  | .file n _ _ _ => n
  | .dir n _ _ => n

/-- Accessor `entry.path` of a produced node. -/
def FileEntry.path : FileEntry → String
  | .file _ p _ _ => p
  | .dir _ p _ => p

/-- Accessor `entry.isDirectory` of a produced node. -/
def FileEntry.isDirectory : FileEntry → Bool
  | .file _ _ _ _ => false
  | .dir _ _ _ => true

/-- Does the character list `s` start with the character list `p`? -/
def listStarts : List Char → List Char → Bool
  | _, [] => true
  | [], _ :: _ => false
  | a :: s, b :: p => a == b && listStarts s p

/-- JavaScript `String.prototype.startsWith`. -/
def jsStartsWith (s p : String) : Bool := listStarts s.data p.data

/-- JavaScript `String.prototype.endsWith`: `s` ends with `p`. -/
def jsEndsWith (s p : String) : Bool :=
  listStarts s.data.reverse p.data.reverse

/-- JavaScript `String.prototype.toLowerCase` on one character (ASCII
case mapping, all the file extensions involved being ASCII). -/
def jsToLowerChar (c : Char) : Char :=
  if 'A' ≤ c && c ≤ 'Z' then Char.ofNat (c.toNat + 32) else c

/-- JavaScript `String.prototype.toLowerCase`. -/
def jsToLower (s : String) : String := String.mk (s.data.map jsToLowerChar)

/-- The `isTextFile` test computed in the file branch of
`processFileEntry`: the declared media type starts with `text/`, or the
lowercased file name ends with one of the allow-listed extensions. -/
def isTextFile (fileType name : String) : Bool :=
  jsStartsWith fileType "text/" ||
    textExtensions.any (fun ext => jsEndsWith (jsToLower name) ext)

/-- The function `processFileEntry` of `App.tsx`.  Returns the produced node (`none`
when the entry is an ignored directory) together with the value of the
size-warning flag contributed by this subtree (`setShowSizeWarning(true)`
calls, `Promise.all` of the children merging by disjunction). -/
def processFileEntry (maxFileSize : Nat) (entry : FsEntry) (path : String) :
    Option FileEntry × Bool :=
  if entry.isDirectory && directoriesToIgnore.contains entry.name then
    (none, false)
  else
    match entry with
    | .file name fileType size content =>
        let isText := isTextFile fileType name
        let contentRead :=
          if isText && size < maxFileSize * 1024 * 1024 then content else ""
        let warned := isText && !decide (size < maxFileSize * 1024 * 1024)
        (some (.file name (path ++ "/" ++ name) contentRead size), warned)
    | .dir name cs =>
        let filteredEntries := cs.filter
          (fun e => !(e.isDirectory && directoriesToIgnore.contains e.name))
        let results := filteredEntries.attach.map
          (fun c => processFileEntry maxFileSize c.1 (path ++ "/" ++ name))
        let validChildren := (results.map Prod.fst).filterMap id
        (some (.dir name (path ++ "/" ++ name) validChildren),
         results.any (fun r => r.2))
termination_by sizeOf entry
decreasing_by
  simp_wf
  have h1 := List.mem_of_mem_filter c.2
  have h2 := List.sizeOf_lt_of_mem h1
  omega

/-- The `isTextFile` test on a file entry, if the entry is a file
(`false` on directories); used to state the warning characterisation. -/
def oversizeTextCandidate (maxFileSize : Nat) : FsEntry → Bool
  | .file n t sz _ => isTextFile t n && !decide (sz < maxFileSize * 1024 * 1024)
  | .dir _ _ => false

/-- JavaScript `s.repeat(k)`: `k` copies concatenated. -/
def repeatStr (s : String) : Nat → String
  | 0 => ""
  | k + 1 => s ++ repeatStr s k

/-- Model of `(size / 1024).toFixed(1)` from `generateTreeText`:
`size / 1024` is the exact dyadic rational `size * 2 ^ (-10)` (byte sizes
are far below `2 ^ 53`, so the double holds it exactly), and `toFixed(1)`
picks the integer `n` minimising `|n / 10 - x|`, ties towards the larger
`n`; the digits are `n / 10` and `n % 10`. -/
def toFixed1KB (size : Nat) : String :=
  let n := (size * 10 * 2 + 1024) / 2048
  toString (n / 10) ++ "." ++ toString (n % 10)

/-- The separator `'='.repeat(80)`. -/
def eq80 : String := repeatStr "=" 80

mutual

/-- The function `generateTreeText` of `App.tsx`: one line for the node (indentation
from the level, a `└─ `/`├─ ` connector when `level > 0`, the size in KB
appended when truthy), followed by the recursively rendered children. -/
def generateTreeText (entry : FileEntry) (level : Nat) (isLast : Bool) :
    String :=
  let indent :=
    if level == 0 then ""
    else repeatStr "  " (level - 1) ++ (if isLast then "└─ " else "├─ ")
  let sizeInfo :=
    match entry with
    | .file _ _ _ size =>
        if size != 0 then " (" ++ toFixed1KB size ++ " KB)" else ""
    | .dir _ _ _ => ""
  let line := indent ++ entry.name ++ sizeInfo ++ "\n"
  match entry with
  | .file _ _ _ _ => line
  | .dir _ _ children => line ++ generateTreeTextChildren children (level + 1)

/-- The `entry.children.forEach` loop inside `generateTreeText`: each
child rendered at `level + 1`, `isLast` true exactly at the final index
(`index === entry.children.length - 1`, i.e. when no entries remain). -/
def generateTreeTextChildren : List FileEntry → Nat → String
  | [], _ => ""
  | c :: rest, level =>
      generateTreeText c level rest.isEmpty ++
        generateTreeTextChildren rest level

end

mutual

/-- The function `generateCombinedText` of `App.tsx`: directories concatenate their
children's output; a file with truthy (non-empty) content contributes its
delimited block; anything else contributes nothing. -/
def generateCombinedText : FileEntry → String
  | .dir _ _ children => combineChildren children
  | .file _ path content _ =>
      if content != "" then
        "\n" ++ eq80 ++ "\n" ++ "File: " ++ path ++ "\n" ++ eq80 ++ "\n\n" ++
          content ++ "\n"
      else ""

/-- The `for (const child of entry.children)` accumulation inside
`generateCombinedText`. -/
def combineChildren : List FileEntry → String
  | [] => ""
  | c :: rest => generateCombinedText c ++ combineChildren rest

end

/-- The function `handleDrop` of `App.tsx`, restricted to its state effects: given the
previously displayed warning flag and the first dropped entry, it resets
the warning (`setShowSizeWarning(false)`), walks the entry, and — when a
tree was produced — assembles the combined text
`` `${treeText}\n${filesText}` `` with
`` treeText = `Folder Structure:\n${generateTreeText(structure)}` ``.
Returns the new `combinedText` state (`none` meaning unchanged) and the
final warning flag. -/
def handleDrop (maxFileSize : Nat) (prevWarning : Bool) (root : FsEntry) :
    Option String × Bool :=
  let cleared := false
  let (struct, warn) := processFileEntry maxFileSize root ""
  match struct with
  | some t =>
      (some ("Folder Structure:\n" ++ generateTreeText t 0 true ++ "\n" ++
             generateCombinedText t), cleared || warn)
  | none => (none, cleared || warn)

/-! ## Unfolding lemmas for the walker -/

/-- Behaviour of `processFileEntry` on a file entry. -/
theorem processFileEntry_file (m : Nat) (n t : String) (sz : Nat)
    (c p : String) :
    processFileEntry m (.file n t sz c) p =
      (some (.file n (p ++ "/" ++ n)
         (if isTextFile t n && decide (sz < m * 1024 * 1024) then c else "")
         sz),
       isTextFile t n && !decide (sz < m * 1024 * 1024)) := by
  rw [processFileEntry]
  simp [FsEntry.isDirectory]

/-- The filter the walker applies to a directory's children before
recursing: drop entries that are directories with ignorable names. -/
def keepEntry (e : FsEntry) : Bool :=
  !(e.isDirectory && directoriesToIgnore.contains e.name)

theorem keepEntry_file (n t : String) (sz : Nat) (c : String) :
    keepEntry (.file n t sz c) = true := rfl

theorem keepEntry_dir (n : String) (cs : List FsEntry) :
    keepEntry (.dir n cs) = !directoriesToIgnore.contains n := rfl

/-- Behaviour of `processFileEntry` on a directory entry, with the
`attach` bookkeeping of the recursive call eliminated, stated with the
source's filtering arrow function. -/
theorem processFileEntry_dir_raw (m : Nat) (n : String) (cs : List FsEntry)
    (p : String) :
    processFileEntry m (.dir n cs) p =
      if directoriesToIgnore.contains n then (none, false)
      else
        let results := (cs.filter
            (fun e => !(e.isDirectory && directoriesToIgnore.contains e.name))).map
          (fun c => processFileEntry m c (p ++ "/" ++ n))
        (some (.dir n (p ++ "/" ++ n) ((results.map Prod.fst).filterMap id)),
         results.any (fun r => r.2)) := by
  rw [processFileEntry]
  by_cases h : directoriesToIgnore.contains n <;>
    simp [FsEntry.isDirectory, FsEntry.name, h, List.attach_map_val]

/-- Restatement of `processFileEntry_dir_raw` through `keepEntry`
(definitionally the same filter). -/
theorem processFileEntry_dir (m : Nat) (n : String) (cs : List FsEntry)
    (p : String) :
    processFileEntry m (.dir n cs) p =
      if directoriesToIgnore.contains n then (none, false)
      else
        (some (.dir n (p ++ "/" ++ n)
           ((((cs.filter keepEntry).map
               (fun c => processFileEntry m c (p ++ "/" ++ n))).map
              Prod.fst).filterMap id)),
         ((cs.filter keepEntry).map
             (fun c => processFileEntry m c (p ++ "/" ++ n))).any
           (fun r => r.2)) :=
  processFileEntry_dir_raw m n cs p

/-! ## Induction principles for the nested tree types -/

/-- Structural induction over `FsEntry`, with the inductive hypothesis
available for every member of a directory's child list. -/
def FsEntry.inductionOn {P : FsEntry → Prop}
    (hf : ∀ n t sz c, P (.file n t sz c))
    (hd : ∀ n cs, (∀ c ∈ cs, P c) → P (.dir n cs)) :
    ∀ e, P e
  | .file n t sz c => hf n t sz c
  | .dir n cs => hd n cs (fun c hc => FsEntry.inductionOn hf hd c)
termination_by e => sizeOf e
decreasing_by
  simp_wf
  have := List.sizeOf_lt_of_mem hc
  omega

/-- Structural induction over `FileEntry`, with the inductive hypothesis
available for every member of a directory's child list. -/
def FileEntry.inductionOn {P : FileEntry → Prop}
    (hf : ∀ n p c sz, P (.file n p c sz))
    (hd : ∀ n p cs, (∀ c ∈ cs, P c) → P (.dir n p cs)) :
    ∀ e, P e
  | .file n p c sz => hf n p c sz
  | .dir n p cs => hd n p cs (fun c hc => FileEntry.inductionOn hf hd c)
termination_by e => sizeOf e
decreasing_by
  simp_wf
  have := List.sizeOf_lt_of_mem hc
  omega

/-! ## Claim-side observation functions on trees -/

/-- All nodes of a produced tree: the node itself and, recursively, every
node of every child. -/
def nodesOf : FileEntry → List FileEntry
  | .file n p c sz => [.file n p c sz]
  | .dir n p cs =>
      .dir n p cs :: (cs.attach.map (fun c => nodesOf c.1)).flatten
termination_by e => sizeOf e
decreasing_by
  simp_wf
  have := List.sizeOf_lt_of_mem c.2
  omega

/-- Unfolding of `nodesOf` on a directory, `attach` eliminated. -/
theorem nodesOf_dir (n p : String) (cs : List FileEntry) :
    nodesOf (.dir n p cs) = .dir n p cs :: (cs.map nodesOf).flatten := by
  rw [nodesOf, List.attach_map_val]

/-- The total number of nodes (files plus directories) of a tree. -/
def nodeCount (t : FileEntry) : Nat := (nodesOf t).length

/-- The filesystem with every ignorable directory (and hence its entire
subtree) removed; `none` when the root itself is an ignorable directory.
Stated from the spec's invariant to compare against the walker. -/
def pruneFs : FsEntry → Option FsEntry
  | .file n t sz c => some (.file n t sz c)
  | .dir n cs =>
      if directoriesToIgnore.contains n then none
      else some (.dir n ((cs.attach.map (fun c => pruneFs c.1)).filterMap id))
termination_by e => sizeOf e
decreasing_by
  simp_wf
  have := List.sizeOf_lt_of_mem c.2
  omega

/-- Unfolding of `pruneFs` on a directory, `attach` eliminated. -/
theorem pruneFs_dir (n : String) (cs : List FsEntry) :
    pruneFs (.dir n cs) =
      if directoriesToIgnore.contains n then none
      else some (.dir n ((cs.map pruneFs).filterMap id)) := by
  rw [pruneFs, List.attach_map_val]

/-- The `(path, content)` pairs of the `File` nodes with non-empty
content, in depth-first child order — the spec's description of what the
Content Aggregator emits blocks for. -/
def filesWithContent : FileEntry → List (String × String)
  | .file _ p c _ => if c != "" then [(p, c)] else []
  | .dir _ _ cs => (cs.attach.map (fun c => filesWithContent c.1)).flatten
termination_by e => sizeOf e
decreasing_by
  simp_wf
  have := List.sizeOf_lt_of_mem c.2
  omega

/-- Unfolding of `filesWithContent` on a directory, `attach` eliminated. -/
theorem filesWithContent_dir (n p : String) (cs : List FileEntry) :
    filesWithContent (.dir n p cs) = (cs.map filesWithContent).flatten := by
  rw [filesWithContent, List.attach_map_val]

/-- The per-file output block the aggregator appends for a file at path
`p` with (non-empty) content `c`. -/
def blockFor (p c : String) : String :=
  "\n" ++ eq80 ++ "\n" ++ "File: " ++ p ++ "\n" ++ eq80 ++ "\n\n" ++ c ++ "\n"

/-- Concatenation of the blocks of a list of `(path, content)` pairs. -/
def specConcat : List (String × String) → String
  | [] => ""
  | x :: r => blockFor x.1 x.2 ++ specConcat r

/-- Distribution of `specConcat` over list append. -/
theorem specConcat_append (a b : List (String × String)) :
    specConcat (a ++ b) = specConcat a ++ specConcat b := by
  induction a with
  | nil => rw [List.nil_append, specConcat, String.empty_append]
  | cons x r ih =>
      rw [List.cons_append, specConcat, specConcat, ih, String.append_assoc]

/-- Modelled from the spec: a file is a text candidate when "its declared
media type begins with the prefix `text/` or its lowercased name ends
with one of the extensions in the fixed allow-list". -/
def specTextCandidate (name fileType : String) : Bool :=
  jsStartsWith fileType "text/" ||
    textExtensions.any (fun ext => jsEndsWith (jsToLower name) ext)

/-! ## Claims -/

/-- C4: a file entry classifies as a text candidate if and only if its
declared media type begins with `text/` or its lowercased name ends with
an allow-listed extension, and the walker's whole treatment of a file is
determined by its name, declared type and size: the produced node and the
warning are exactly the expression below, in which the content `c` only
appears as the payload that is copied when the candidate passes the size
gate — never inside the classification itself. -/
theorem C4_classifier_metadata_only (m : Nat) (n t : String) (sz : Nat)
    (c p : String) :
    processFileEntry m (.file n t sz c) p =
      (some (.file n (p ++ "/" ++ n)
         (if specTextCandidate n t && decide (sz < m * 1024 * 1024) then c
          else "") sz),
       specTextCandidate n t && !decide (sz < m * 1024 * 1024)) := by
  rw [processFileEntry_file]; rfl

/-- C2: inclusion is strict less-than against `maxFileSize * 1024 * 1024`:
a text-candidate file whose size equals the limit is recorded with empty
content (and raises the warning), while one a single byte under the limit
has its content read. -/
theorem C2_size_boundary_strict (m : Nat) (n t c p : String)
    (hcand : isTextFile t n = true) (hm : 1 ≤ m) :
    processFileEntry m (.file n t (m * 1024 * 1024) c) p =
      (some (.file n (p ++ "/" ++ n) "" (m * 1024 * 1024)), true)
    ∧ processFileEntry m (.file n t (m * 1024 * 1024 - 1) c) p =
      (some (.file n (p ++ "/" ++ n) c (m * 1024 * 1024 - 1)), false) := by
  have hlt : m * 1024 * 1024 - 1 < m * 1024 * 1024 := by omega
  constructor
  · rw [processFileEntry_file]
    simp [hcand]
  · rw [processFileEntry_file]
    simp [hcand, hlt]

/-- Witness for C2 at `maxFileSize = 1` on a `text/plain` file. -/
theorem C2_size_boundary_strict_witness :
    isTextFile "text/plain" "a" = true ∧ 1 ≤ 1 ∧
    (processFileEntry 1 (.file "a" "text/plain" (1 * 1024 * 1024) "x") "" =
       (some (.file "a" "/a" "" (1 * 1024 * 1024)), true)
     ∧ processFileEntry 1
         (.file "a" "text/plain" (1 * 1024 * 1024 - 1) "x") "" =
       (some (.file "a" "/a" "x" (1 * 1024 * 1024 - 1)), false)) :=
  ⟨by decide, by decide,
   C2_size_boundary_strict 1 "a" "text/plain" "x" "" (by decide) (by decide)⟩

/-- The children loop of the aggregator agrees with `specConcat` over the
flattened per-child file lists, given the equation on every child. -/
theorem combineChildren_eq (cs : List FileEntry)
    (ih : ∀ c ∈ cs, generateCombinedText c = specConcat (filesWithContent c)) :
    combineChildren cs = specConcat ((cs.map filesWithContent).flatten) := by
  induction cs with
  | nil => rfl
  | cons c rest ihr =>
      rw [combineChildren, List.map_cons, List.flatten_cons, specConcat_append,
          ih c (by simp), ihr (fun x hx => ih x (by simp [hx]))]

/-- C5: the aggregator's output is the concatenation of one block per
`File` node with non-empty content, in depth-first child order; files
with empty content and directories contribute nothing of their own. -/
theorem C5_aggregator_blocks (t : FileEntry) :
    generateCombinedText t = specConcat (filesWithContent t) := by
  induction t using FileEntry.inductionOn with
  | hf n p c sz =>
      rw [generateCombinedText, filesWithContent]
      by_cases h : c = ""
      · simp [h, specConcat]
      · simp [h, specConcat, blockFor]
  | hd n p cs ih =>
      rw [generateCombinedText, filesWithContent_dir]
      exact combineChildren_eq cs ih

/-- C6 as stated is false: the per-file block the aggregator emits begins
with an extra newline before its first separator line.  At the single
file `/a` with content `x` the aggregated output is not the claimed
"separator line, `File:` line, separator line, blank line, content,
trailing newline". -/
theorem C6_block_format_counterexample :
    generateCombinedText (.file "a" "/a" "x" 1) ≠
      eq80 ++ "\n" ++ "File: /a" ++ "\n" ++ eq80 ++ "\n\n" ++ "x" ++ "\n" := by
  decide

/-- C6 amended: each per-file block is a newline (separating it from the
preceding output) followed by the 80-`=` separator line, the
`File: <path>` line, another separator line, a blank line, the content
and a trailing newline; the final output handed to the caller equals
`"Folder Structure:\n"`, the tree rendering, a newline and the
aggregated content. -/
theorem C6_block_format_amended (n p c : String) (sz : Nat) (m : Nat)
    (prev : Bool) (root : FsEntry) (t : FileEntry) (w : Bool)
    (hc : c ≠ "") (hw : processFileEntry m root "" = (some t, w)) :
    generateCombinedText (.file n p c sz) =
      "\n" ++ eq80 ++ "\n" ++ "File: " ++ p ++ "\n" ++ eq80 ++ "\n\n" ++
        c ++ "\n"
    ∧ (handleDrop m prev root).1 =
      some ("Folder Structure:\n" ++ generateTreeText t 0 true ++ "\n" ++
        generateCombinedText t) := by
  constructor
  · rw [generateCombinedText]
    simp [hc]
  · simp [handleDrop, hw]

/-- Witness for the amended C6: a one-file drop. -/
theorem C6_block_format_amended_witness :
    ("x" : String) ≠ "" ∧
    processFileEntry 1 (.file "b" "text/plain" 2 "hi") "" =
      (some (.file "b" "/b" "hi" 2), false) ∧
    (generateCombinedText (.file "a" "/a" "x" 1) =
      "\n" ++ eq80 ++ "\n" ++ "File: /a" ++ "\n" ++ eq80 ++ "\n\n" ++
        "x" ++ "\n"
     ∧ (handleDrop 1 true (.file "b" "text/plain" 2 "hi")).1 =
      some ("Folder Structure:\n" ++
        generateTreeText (.file "b" "/b" "hi" 2) 0 true ++ "\n" ++
        generateCombinedText (.file "b" "/b" "hi" 2))) := by
  have hw : processFileEntry 1 (.file "b" "text/plain" 2 "hi") "" =
      (some (.file "b" "/b" "hi" 2), false) := by
    simp [processFileEntry_file, isTextFile, jsStartsWith, listStarts]
  exact ⟨by decide, hw,
    C6_block_format_amended "a" "/a" "x" 1 1 true
      (.file "b" "text/plain" 2 "hi") (.file "b" "/b" "hi" 2) false
      (by decide) hw⟩

/-- Walking a list of children is unchanged when ignorable directories
are pruned from it beforehand, given the pruning equation for every
element. -/
theorem walk_prune_children (m : Nat) (p' : String) :
    ∀ cs : List FsEntry,
      (∀ c ∈ cs, ∀ p, processFileEntry m c p =
          match pruneFs c with
          | none => (none, false)
          | some c' => processFileEntry m c' p) →
      ((cs.filter keepEntry).map (fun c => processFileEntry m c p')) =
      ((((cs.map pruneFs).filterMap id).filter keepEntry).map
          (fun c => processFileEntry m c p')) := by
  intro cs
  induction cs with
  | nil => intro _; rfl
  | cons c rest ihr =>
      intro ih
      have ihc := ih c (List.mem_cons_self c rest)
      have ihrest := ihr (fun x hx => ih x (List.mem_cons_of_mem c hx))
      cases c with
      | file n' t' sz' c' =>
          have hp : pruneFs (.file n' t' sz' c') =
              some (.file n' t' sz' c') := by rw [pruneFs]
          have hid : id (pruneFs (.file n' t' sz' c')) =
              some (.file n' t' sz' c') := by rw [id_eq, hp]
          rw [List.map_cons, List.filterMap_cons_some hid, List.filter_cons,
            List.filter_cons, if_pos (by rw [keepEntry_file]),
            if_pos (by rw [keepEntry_file]), List.map_cons, List.map_cons,
            ihrest]
      | dir n' cs' =>
          by_cases h' : directoriesToIgnore.contains n'
          · have hk : keepEntry (.dir n' cs') = false := by
              rw [keepEntry_dir, h']; rfl
            have hp : pruneFs (.dir n' cs') = none := by
              rw [pruneFs_dir, if_pos h']
            rw [List.map_cons, List.filterMap_cons_none (by rw [id_eq, hp]),
              List.filter_cons, if_neg (by simp [hk])]
            exact ihrest
          · have hb : directoriesToIgnore.contains n' = false :=
              Bool.eq_false_iff.mpr h'
            have hk : keepEntry (.dir n' cs') = true := by
              rw [keepEntry_dir, hb]; rfl
            have hk2 : keepEntry
                (.dir n' ((cs'.map pruneFs).filterMap id)) = true := by
              rw [keepEntry_dir, hb]; rfl
            have hp : pruneFs (.dir n' cs') =
                some (.dir n' ((cs'.map pruneFs).filterMap id)) := by
              rw [pruneFs_dir, if_neg h']
            rw [List.map_cons, List.filterMap_cons_some (by rw [id_eq, hp]),
              List.filter_cons, List.filter_cons, if_pos (by rw [hk]),
              if_pos (by rw [hk2]), List.map_cons, List.map_cons, ihrest]
            have hc : processFileEntry m (.dir n' cs') p' =
                processFileEntry m
                  (.dir n' ((cs'.map pruneFs).filterMap id)) p' := by
              have h0 := ihc p'
              rw [hp] at h0
              exact h0
            rw [hc]

/-- Walking an entry is invariant under pruning of every ignorable
directory (and its whole subtree): when the root itself is ignorable the
walk is `(none, false)`, otherwise it equals the walk of the pruned
filesystem. -/
theorem walk_prune (m : Nat) :
    ∀ (e : FsEntry) (p : String),
      processFileEntry m e p =
        match pruneFs e with
        | none => (none, false)
        | some e' => processFileEntry m e' p := by
  intro e
  induction e using FsEntry.inductionOn with
  | hf n t sz c => intro p; rw [pruneFs]
  | hd n cs ih =>
      intro p
      rw [pruneFs_dir]
      by_cases h : directoriesToIgnore.contains n
      · rw [if_pos h, processFileEntry_dir, if_pos h]
      · rw [if_neg h]
        show processFileEntry m (.dir n cs) p =
          processFileEntry m (.dir n ((cs.map pruneFs).filterMap id)) p
        rw [processFileEntry_dir, processFileEntry_dir, if_neg h, if_neg h,
          walk_prune_children m (p ++ "/" ++ n) cs ih]

/-- No directory node of a produced tree carries a name from the ignore
set: the walker filters those out before they can be attached. -/
theorem walk_no_ignored_dir (m : Nat) :
    ∀ e, ∀ (p : String) (t : FileEntry) (w : Bool),
      processFileEntry m e p = (some t, w) →
      ∀ d ∈ nodesOf t, d.isDirectory = true →
        directoriesToIgnore.contains d.name = false := by
  intro e
  induction e using FsEntry.inductionOn with
  | hf n t' sz c =>
      intro p t w hw d hd hdir
      rw [processFileEntry_file] at hw
      simp only [Prod.mk.injEq, Option.some.injEq] at hw
      obtain ⟨ht, _⟩ := hw
      subst ht
      rw [nodesOf] at hd
      rcases List.mem_singleton.mp hd with rfl
      exact absurd hdir (by rw [FileEntry.isDirectory]; exact Bool.false_ne_true)
  | hd n cs ih =>
      intro p t w hw d hd hdir
      rw [processFileEntry_dir] at hw
      by_cases h : directoriesToIgnore.contains n
      · rw [if_pos h] at hw
        exact absurd hw (by simp)
      · rw [if_neg h] at hw
        simp only [Prod.mk.injEq, Option.some.injEq] at hw
        obtain ⟨ht, _⟩ := hw
        subst ht
        rw [nodesOf_dir] at hd
        rcases List.mem_cons.mp hd with rfl | hmem
        · rw [FileEntry.name]
          exact Bool.eq_false_iff.mpr h
        · obtain ⟨l, hl, hdl⟩ := List.mem_flatten.mp hmem
          obtain ⟨c', hc', rfl⟩ := List.mem_map.mp hl
          simp only [List.mem_filterMap, List.mem_map, id_eq] at hc'
          obtain ⟨o, ⟨r, ⟨cFs, hcFs, hr⟩, ho⟩, hoc⟩ := hc'
          have hfst : (processFileEntry m cFs (p ++ "/" ++ n)).1 = some c' := by
            rw [hr, ho, hoc]
          have heq : processFileEntry m cFs (p ++ "/" ++ n) =
              (some c', (processFileEntry m cFs (p ++ "/" ++ n)).2) := by
            rw [← hfst]
          exact ih cFs (List.mem_of_mem_filter hcFs) (p ++ "/" ++ n) c' _
            heq d hdl hdir

/-- C1: an ignorable directory never contributes to the produced tree.
When the root entry itself is an ignorable directory the walker returns
`null` — for every child list, so its children are never consulted;
walking any entry equals walking the entry with every ignorable directory
(together with its whole subtree) pruned away beforehand, so no node for
an ignorable directory or for any of its descendants can appear; and
indeed no directory node of any produced tree has a name in the ignore
set. -/
theorem C1_ignored_dirs_excluded (m : Nat) :
    (∀ (n : String) (cs : List FsEntry) (p : String),
       directoriesToIgnore.contains n = true →
       processFileEntry m (.dir n cs) p = (none, false))
    ∧ (∀ (e : FsEntry) (p : String),
       processFileEntry m e p =
         match pruneFs e with
         | none => (none, false)
         | some e' => processFileEntry m e' p)
    ∧ (∀ (e : FsEntry) (p : String) (t : FileEntry) (w : Bool),
       processFileEntry m e p = (some t, w) →
       ∀ d ∈ nodesOf t, d.isDirectory = true →
         directoriesToIgnore.contains d.name = false) := by
  refine ⟨fun n cs p h => ?_, walk_prune m, walk_no_ignored_dir m⟩
  rw [processFileEntry_dir, if_pos h]

/-- Witness for C1: a dropped `.git` directory yields `null` without its
child being consulted, and a concrete walked tree whose root directory
is checked against the ignore set. -/
theorem C1_ignored_dirs_excluded_witness :
    directoriesToIgnore.contains ".git" = true
    ∧ processFileEntry 1 (.dir ".git" [.file "a.txt" "text/plain" 3 "hi"]) ""
        = (none, false)
    ∧ processFileEntry 1 (.dir "p" [.file "r.md" "text/plain" 3 "hi"]) "" =
        (some (.dir "p" "/p" [.file "r.md" "/p/r.md" "hi" 3]), false)
    ∧ FileEntry.dir "p" "/p" [.file "r.md" "/p/r.md" "hi" 3] ∈
        nodesOf (.dir "p" "/p" [.file "r.md" "/p/r.md" "hi" 3])
    ∧ (FileEntry.dir "p" "/p"
        [.file "r.md" "/p/r.md" "hi" 3]).isDirectory = true
    ∧ directoriesToIgnore.contains
        (FileEntry.dir "p" "/p" [.file "r.md" "/p/r.md" "hi" 3]).name
        = false := by
  have h1 : directoriesToIgnore.contains ".git" = true := by decide
  have hw : processFileEntry 1
      (.dir "p" [.file "r.md" "text/plain" 3 "hi"]) "" =
      (some (.dir "p" "/p" [.file "r.md" "/p/r.md" "hi" 3]), false) := by
    simp [processFileEntry_dir_raw, processFileEntry_file, directoriesToIgnore,
      FsEntry.isDirectory, FsEntry.name, List.filter, isTextFile, jsStartsWith,
      jsEndsWith, jsToLower, jsToLowerChar, listStarts, textExtensions]
  have hmem : (FileEntry.dir "p" "/p" [.file "r.md" "/p/r.md" "hi" 3]) ∈
      nodesOf (.dir "p" "/p" [.file "r.md" "/p/r.md" "hi" 3]) := by
    rw [nodesOf_dir]
    exact List.mem_cons_self _ _
  exact ⟨h1,
    (C1_ignored_dirs_excluded 1).1 ".git" [.file "a.txt" "text/plain" 3 "hi"]
      "" h1,
    hw, hmem, rfl,
    (C1_ignored_dirs_excluded 1).2.2 _ "" _ false hw _ hmem rfl⟩

/-- The file entries a drop actually visits: a file is visited; an
ignorable directory contributes nothing; any other directory contributes
the visits of its children in order. -/
def visitedFiles : FsEntry → List FsEntry
  | .file n t sz c => [.file n t sz c]
  | .dir n cs =>
      if directoriesToIgnore.contains n then []
      else (cs.attach.map (fun c => visitedFiles c.1)).flatten
termination_by e => sizeOf e
decreasing_by
  simp_wf
  have := List.sizeOf_lt_of_mem c.2
  omega

/-- Unfolding of `visitedFiles` on a directory, `attach` eliminated. -/
theorem visitedFiles_dir (n : String) (cs : List FsEntry) :
    visitedFiles (.dir n cs) =
      if directoriesToIgnore.contains n then []
      else (cs.map visitedFiles).flatten := by
  rw [visitedFiles, List.attach_map_val]

/-- The warning produced over a child list equals the scan of the
children's visited files, given the equation on every element. -/
theorem walk_warning_children (m : Nat) (p' : String) :
    ∀ cs : List FsEntry,
      (∀ c ∈ cs, ∀ p, (processFileEntry m c p).2 =
        (visitedFiles c).any (oversizeTextCandidate m)) →
      (((cs.filter keepEntry).map
          (fun c => processFileEntry m c p')).any (fun r => r.2))
        = ((cs.map visitedFiles).flatten).any (oversizeTextCandidate m) := by
  intro cs
  induction cs with
  | nil => intro _; rfl
  | cons c rest ihr =>
      intro ih
      have ihc := ih c (List.mem_cons_self c rest)
      have ihrest := ihr (fun x hx => ih x (List.mem_cons_of_mem c hx))
      rw [List.map_cons, List.flatten_cons, List.any_append]
      cases c with
      | file n' t' sz' c' =>
          rw [List.filter_cons, if_pos (by rw [keepEntry_file]),
            List.map_cons, List.any_cons, ihc p', ihrest]
      | dir n' cs' =>
          by_cases h' : directoriesToIgnore.contains n'
          · have hk : keepEntry (.dir n' cs') = false := by
              rw [keepEntry_dir, h']; rfl
            rw [List.filter_cons, if_neg (by simp [hk]), ihrest,
              visitedFiles_dir, if_pos h']
            rw [List.any_nil, Bool.false_or]
          · have hk : keepEntry (.dir n' cs') = true := by
              rw [keepEntry_dir, Bool.eq_false_iff.mpr h']; rfl
            rw [List.filter_cons, if_pos (by rw [hk]), List.map_cons,
              List.any_cons, ihc p', ihrest]

/-- The size-warning flag coming out of a walk is exactly "some visited
file is a text candidate at or above the size limit". -/
theorem walk_warning (m : Nat) :
    ∀ e, ∀ (p : String),
      (processFileEntry m e p).2 =
        (visitedFiles e).any (oversizeTextCandidate m) := by
  intro e
  induction e using FsEntry.inductionOn with
  | hf n t sz c =>
      intro p
      rw [processFileEntry_file, visitedFiles]
      simp [oversizeTextCandidate]
  | hd n cs ih =>
      intro p
      by_cases h : directoriesToIgnore.contains n
      · rw [processFileEntry_dir, if_pos h, visitedFiles_dir, if_pos h]
        rfl
      · rw [processFileEntry_dir, if_neg h, visitedFiles_dir, if_neg h]
        exact walk_warning_children m (p ++ "/" ++ n) cs ih

/-- The flag `handleDrop` leaves behind is the walk's flag: the previous
flag value is overwritten (cleared, then possibly re-raised). -/
theorem handleDrop_snd (m : Nat) (prev : Bool) (root : FsEntry) :
    (handleDrop m prev root).2 = (processFileEntry m root "").2 := by
  rw [handleDrop]
  rcases hpe : processFileEntry m root "" with ⟨s, w⟩
  cases s <;> simp

/-- C3: after a drop the size warning shows if and only if some visited
text-candidate file was at or above the size limit — a file rejected only
for not being a text candidate never raises it (`oversizeTextCandidate`
conjoins the candidate test) — and the result holds for every previous
flag value, i.e. the flag is cleared at the start of the drop. -/
theorem C3_warning_iff_oversize_text (m : Nat) (prev : Bool)
    (root : FsEntry) :
    ((handleDrop m prev root).2 = true ↔
      ∃ e ∈ visitedFiles root, oversizeTextCandidate m e = true) := by
  rw [handleDrop_snd, walk_warning m root ""]
  exact List.any_eq_true

/-- Witness for C3: a 2 MiB `big.log` under a 1 MiB limit raises the
warning even though the previously shown flag was already up. -/
theorem C3_warning_iff_oversize_text_witness :
    (handleDrop 1 true
      (.dir "p" [.file "big.log" "text/plain" 2097152 "x"])).2 = true := by
  have hmem : FsEntry.file "big.log" "text/plain" 2097152 "x" ∈
      visitedFiles (.dir "p" [.file "big.log" "text/plain" 2097152 "x"]) := by
    rw [visitedFiles_dir, if_neg (by decide), List.map_cons, List.map_nil,
      List.flatten_cons, List.flatten_nil, List.append_nil, visitedFiles]
    exact List.mem_singleton.mpr rfl
  have hcand : oversizeTextCandidate 1
      (.file "big.log" "text/plain" 2097152 "x") = true := by decide
  exact (C3_warning_iff_oversize_text 1 true _).mpr
    ⟨.file "big.log" "text/plain" 2097152 "x", hmem, hcand⟩

/-- C10: the ignore set is consulted only for directory entries.  A file
entry whose name is in the ignore set (hypothesis `hn`) is still
processed like any other file — it yields a node (with content when it
classifies as a text file under the size limit) — and inside a
non-ignored directory it appears among the children. -/
theorem C10_ignore_set_only_directories (m : Nat) (n t c p : String)
    (sz : Nat) (dn : String)
    (hn : directoriesToIgnore.contains n = true)
    (hdn : directoriesToIgnore.contains dn = false) :
    processFileEntry m (.file n t sz c) p =
      (some (.file n (p ++ "/" ++ n)
         (if isTextFile t n && decide (sz < m * 1024 * 1024) then c else "")
         sz),
       isTextFile t n && !decide (sz < m * 1024 * 1024))
    ∧ (processFileEntry m (.dir dn [.file n t sz c]) p).1 =
      some (.dir dn (p ++ "/" ++ dn)
        [.file n (p ++ "/" ++ dn ++ "/" ++ n)
           (if isTextFile t n && decide (sz < m * 1024 * 1024) then c
            else "") sz]) := by
  refine ⟨processFileEntry_file m n t sz c p, ?_⟩
  rw [processFileEntry_dir, if_neg (by rw [hdn]; exact Bool.false_ne_true)]
  rw [List.filter_cons, if_pos (by rw [keepEntry_file]), List.filter_nil,
    List.map_cons, List.map_nil, processFileEntry_file]
  simp

/-- Witness for C10: a `.DS_Store` file with a textual media type is
included, content and all. -/
theorem C10_ignore_set_only_directories_witness :
    directoriesToIgnore.contains ".DS_Store" = true
    ∧ directoriesToIgnore.contains "p" = false
    ∧ processFileEntry 1 (.file ".DS_Store" "text/plain" 4 "junk") "" =
        (some (.file ".DS_Store" "/.DS_Store" "junk" 4), false)
    ∧ (processFileEntry 1
        (.dir "p" [.file ".DS_Store" "text/plain" 4 "junk"]) "").1 =
        some (.dir "p" "/p" [.file ".DS_Store" "/p/.DS_Store" "junk" 4]) := by
  have h := C10_ignore_set_only_directories 1 ".DS_Store" "text/plain"
    "junk" "" 4 "p" (by decide) (by decide)
  exact ⟨by decide, by decide, h.1, h.2⟩

/-- The indentation the renderer puts before a node's name: nothing at
level 0; two spaces per ancestor level beyond the first, then the
`└─ `/`├─ ` connector according to being last among siblings. -/
def indentFor (level : Nat) (isLast : Bool) : String :=
  if level == 0 then ""
  else repeatStr "  " (level - 1) ++ (if isLast then "└─ " else "├─ ")

/-- The size annotation of a rendered line: kibibytes to one decimal in
parentheses for a file with non-zero size, nothing for a zero/unset size
or a directory. -/
def sizeSuffix : FileEntry → String
  | .file _ _ _ size =>
      if size != 0 then " (" ++ toFixed1KB size ++ " KB)" else ""
  | .dir _ _ _ => ""

/-- What follows a node's own line: nothing for a file, the children's
rendering (one level deeper) for a directory. -/
def childrenRendering : FileEntry → Nat → String
  | .file _ _ _ _, _ => ""
  | .dir _ _ cs, level => generateTreeTextChildren cs (level + 1)

/-- C7: every node renders as exactly the line
`indentFor level isLast ++ name ++ sizeSuffix ++ "\n"` followed by its
children's rendering; and a child is rendered with `isLast` true exactly
when no siblings follow it. -/
theorem C7_renderer_line_shape (e : FileEntry) (level : Nat) (isLast : Bool)
    (c : FileEntry) (rest : List FileEntry) :
    generateTreeText e level isLast =
      indentFor level isLast ++ e.name ++ sizeSuffix e ++ "\n" ++
        childrenRendering e level
    ∧ generateTreeTextChildren (c :: rest) level =
      generateTreeText c level rest.isEmpty ++
        generateTreeTextChildren rest level := by
  constructor
  · rw [generateTreeText.eq_def]
    cases e <;>
      simp [indentFor, sizeSuffix, childrenRendering, FileEntry.name,
        String.append_assoc]
  · rw [generateTreeTextChildren.eq_def]

/-- The path discipline the Walker maintains: a node's stored path is the
parent path, a slash, and the node's name; the children of a directory
satisfy the same discipline with the directory's own path as parent. -/
def pathsOkB (parent : String) : FileEntry → Bool
  | .file n p _ _ => p == parent ++ "/" ++ n
  | .dir n p cs =>
      p == parent ++ "/" ++ n &&
        (cs.attach.map
          (fun c => pathsOkB (parent ++ "/" ++ n) c.1)).all id
termination_by e => sizeOf e
decreasing_by
  simp_wf
  have := List.sizeOf_lt_of_mem c.2
  omega

/-- Unfolding of `pathsOkB` on a directory, `attach` eliminated. -/
theorem pathsOkB_dir (parent n p : String) (cs : List FileEntry) :
    pathsOkB parent (.dir n p cs) =
      (p == parent ++ "/" ++ n &&
        cs.all (pathsOkB (parent ++ "/" ++ n))) := by
  rw [pathsOkB, List.attach_map_val]
  congr 1
  induction cs with
  | nil => rfl
  | cons c rest ih =>
      rw [List.map_cons, List.all_cons, List.all_cons, ih]
      rfl

/-- Every tree the walker produces satisfies the path discipline. -/
theorem walk_pathsOk (m : Nat) :
    ∀ e, ∀ (p : String) (t : FileEntry) (w : Bool),
      processFileEntry m e p = (some t, w) → pathsOkB p t = true := by
  intro e
  induction e using FsEntry.inductionOn with
  | hf n t' sz c =>
      intro p t w hw
      rw [processFileEntry_file] at hw
      simp only [Prod.mk.injEq, Option.some.injEq] at hw
      obtain ⟨ht, _⟩ := hw
      subst ht
      rw [pathsOkB]
      exact beq_self_eq_true _
  | hd n cs ih =>
      intro p t w hw
      rw [processFileEntry_dir] at hw
      by_cases h : directoriesToIgnore.contains n
      · rw [if_pos h] at hw
        exact absurd hw (by simp)
      · rw [if_neg h] at hw
        simp only [Prod.mk.injEq, Option.some.injEq] at hw
        obtain ⟨ht, _⟩ := hw
        subst ht
        rw [pathsOkB_dir, beq_self_eq_true, Bool.true_and, List.all_eq_true]
        intro c' hc'
        simp only [List.mem_filterMap, List.mem_map, id_eq] at hc'
        obtain ⟨o, ⟨r, ⟨cFs, hcFs, hr⟩, ho⟩, hoc⟩ := hc'
        have hfst : (processFileEntry m cFs (p ++ "/" ++ n)).1 = some c' := by
          rw [hr, ho, hoc]
        have heq : processFileEntry m cFs (p ++ "/" ++ n) =
            (some c', (processFileEntry m cFs (p ++ "/" ++ n)).2) := by
          rw [← hfst]
        exact ih cFs (List.mem_of_mem_filter hcFs) (p ++ "/" ++ n) c' _ heq

/-- Under the path discipline every node's path ends with its name. -/
theorem pathsOk_endsWithName :
    ∀ t, ∀ parent : String, pathsOkB parent t = true →
      ∀ x ∈ nodesOf t, ∃ pre, x.path = pre ++ x.name := by
  intro t
  induction t using FileEntry.inductionOn with
  | hf n p c sz =>
      intro parent hok x hx
      rw [nodesOf] at hx
      rcases List.mem_singleton.mp hx with rfl
      rw [pathsOkB] at hok
      refine ⟨parent ++ "/", ?_⟩
      rw [FileEntry.path, FileEntry.name, eq_of_beq hok, String.append_assoc]
  | hd n p cs ih =>
      intro parent hok x hx
      rw [pathsOkB_dir] at hok
      obtain ⟨hp, hall⟩ := Bool.and_eq_true_iff.mp hok
      rw [nodesOf_dir] at hx
      rcases List.mem_cons.mp hx with rfl | hmem
      · refine ⟨parent ++ "/", ?_⟩
        rw [FileEntry.path, FileEntry.name, eq_of_beq hp, String.append_assoc]
      · obtain ⟨l, hl, hxl⟩ := List.mem_flatten.mp hmem
        obtain ⟨c', hc', rfl⟩ := List.mem_map.mp hl
        exact ih c' hc' (parent ++ "/" ++ n)
          (List.all_eq_true.mp hall c' hc') x hxl

/-- C9: every node the walker builds has path equal to the accumulated
parent path, `"/"`, and its name; each recursive call into a directory's
children passes the directory's own path as parent (that is what
`pathsOkB` checks level by level), and consequently every node's path
ends with its name. -/
theorem C9_path_construction (m : Nat) (e : FsEntry) (p : String)
    (t : FileEntry) (w : Bool)
    (hw : processFileEntry m e p = (some t, w)) :
    pathsOkB p t = true
    ∧ ∀ x ∈ nodesOf t, ∃ pre, x.path = pre ++ x.name := by
  have hok := walk_pathsOk m e p t w hw
  exact ⟨hok, pathsOk_endsWithName t p hok⟩

/-- Witness for C9 on a concrete two-level drop. -/
theorem C9_path_construction_witness :
    processFileEntry 1 (.dir "p" [.file "r.md" "text/plain" 3 "hi"]) "" =
      (some (.dir "p" "/p" [.file "r.md" "/p/r.md" "hi" 3]), false)
    ∧ pathsOkB "" (.dir "p" "/p" [.file "r.md" "/p/r.md" "hi" 3]) = true := by
  have hw : processFileEntry 1
      (.dir "p" [.file "r.md" "text/plain" 3 "hi"]) "" =
      (some (.dir "p" "/p" [.file "r.md" "/p/r.md" "hi" 3]), false) := by
    simp [processFileEntry_dir_raw, processFileEntry_file, directoriesToIgnore,
      FsEntry.isDirectory, FsEntry.name, List.filter, isTextFile, jsStartsWith,
      jsEndsWith, jsToLower, jsToLowerChar, listStarts, textExtensions]
  exact ⟨hw, (C9_path_construction 1 _ "" _ false hw).1⟩

mutual

/-- The renderer's output, line by line (without the terminating
newlines): a node's own line followed by its children's lines. -/
def renderLines (e : FileEntry) (level : Nat) (isLast : Bool) :
    List String :=
  (indentFor level isLast ++ e.name ++ sizeSuffix e) ::
    (match e with
     | .file _ _ _ _ => []
     | .dir _ _ cs => renderLinesList cs (level + 1))

/-- Line-by-line view of the children loop. -/
def renderLinesList : List FileEntry → Nat → List String
  | [], _ => []
  | c :: rest, level =>
      renderLines c level rest.isEmpty ++ renderLinesList rest level

end

/-- Terminate every line with a newline and concatenate. -/
def unlines : List String → String
  | [] => ""
  | l :: r => l ++ "\n" ++ unlines r

/-- Number of newline characters in a string — the number of
newline-terminated lines it contains. -/
def countNL (s : String) : Nat := s.data.count '\n'

theorem unlines_append (a b : List String) :
    unlines (a ++ b) = unlines a ++ unlines b := by
  induction a with
  | nil => rw [List.nil_append, unlines, String.empty_append]
  | cons l r ih =>
      rw [List.cons_append, unlines, unlines, ih, ← String.append_assoc]

theorem countNL_append (a b : String) :
    countNL (a ++ b) = countNL a + countNL b := by
  rw [countNL, countNL, countNL, String.data_append, List.count_append]

/-- The children loop renders the unlines of its line-by-line view. -/
theorem childrenText_unlines (level : Nat) :
    ∀ cs : List FileEntry,
      (∀ c ∈ cs, ∀ (lv : Nat) (la : Bool),
        generateTreeText c lv la = unlines (renderLines c lv la)) →
      generateTreeTextChildren cs level =
        unlines (renderLinesList cs level) := by
  intro cs
  induction cs with
  | nil => intro _; rfl
  | cons c rest ihr =>
      intro ih
      rw [generateTreeTextChildren, renderLinesList, unlines_append,
        ih c (List.mem_cons_self c rest) level rest.isEmpty,
        ihr (fun x hx => ih x (List.mem_cons_of_mem c hx))]

/-- The renderer's string output is exactly its line-by-line view with a
newline after every line. -/
theorem tree_unlines :
    ∀ (e : FileEntry) (level : Nat) (isLast : Bool),
      generateTreeText e level isLast =
        unlines (renderLines e level isLast) := by
  intro e
  induction e using FileEntry.inductionOn with
  | hf n p c sz =>
      intro level isLast
      rw [generateTreeText.eq_def, renderLines.eq_def, unlines, unlines,
        String.append_empty]
      simp [indentFor, sizeSuffix, FileEntry.name, String.append_assoc]
  | hd n p cs ih =>
      intro level isLast
      rw [generateTreeText.eq_def, renderLines.eq_def, unlines,
        ← childrenText_unlines (level + 1) cs
          (fun c hc lv la => ih c hc lv la)]
      simp [indentFor, sizeSuffix, FileEntry.name, String.append_assoc]

/-- One line per node: the line-by-line view has as many entries as the
tree has nodes. -/
theorem renderLines_length :
    ∀ (e : FileEntry) (level : Nat) (isLast : Bool),
      (renderLines e level isLast).length = (nodesOf e).length := by
  intro e
  induction e using FileEntry.inductionOn with
  | hf n p c sz =>
      intro level isLast
      rw [renderLines.eq_def, nodesOf]
      rfl
  | hd n p cs ih =>
      intro level isLast
      rw [renderLines.eq_def, nodesOf_dir, List.length_cons, List.length_cons]
      have : ∀ ds : List FileEntry,
          (∀ c ∈ ds, ∀ (lv : Nat) (la : Bool),
            (renderLines c lv la).length = (nodesOf c).length) →
          ∀ lv : Nat, (renderLinesList ds lv).length =
            ((ds.map nodesOf).flatten).length := by
        intro ds
        induction ds with
        | nil => intro _ _; rfl
        | cons d rest ihr =>
            intro hds lv
            rw [renderLinesList, List.map_cons, List.flatten_cons,
              List.length_append, List.length_append,
              hds d (List.mem_cons_self d rest) lv rest.isEmpty,
              ihr (fun x hx => hds x (List.mem_cons_of_mem d hx)) lv]
      rw [this cs (fun c hc lv la => ih c hc lv la) (level + 1)]

theorem digitChar_ne_newline (k : Nat) : Nat.digitChar k ≠ '\n' := by
  rcases Nat.lt_or_ge k 16 with hk | hk
  · interval_cases k <;> decide
  · unfold Nat.digitChar
    iterate 16 rw [if_neg (by omega)]
    decide

theorem toDigitsCore_countNL :
    ∀ (fuel n : Nat) (acc : List Char), acc.count '\n' = 0 →
      (Nat.toDigitsCore 10 fuel n acc).count '\n' = 0 := by
  intro fuel
  induction fuel with
  | zero => intro n acc h; exact h
  | succ f ih =>
      intro n acc h
      rw [Nat.toDigitsCore]
      have hd : (Nat.digitChar (n % 10) :: acc).count '\n' = 0 := by
        rw [List.count_cons, h]
        simp [digitChar_ne_newline]
      split
      · exact hd
      · exact ih _ _ hd

theorem countNL_toString_nat (n : Nat) : countNL (toString n) = 0 := by
  show (Nat.toDigits 10 n).count '\n' = 0
  exact toDigitsCore_countNL (n + 1) n [] rfl

theorem countNL_repeatStr_spaces (k : Nat) :
    countNL (repeatStr "  " k) = 0 := by
  induction k with
  | zero => decide
  | succ j ih =>
      rw [repeatStr, countNL_append, ih]
      decide

theorem countNL_indentFor (lvl : Nat) (b : Bool) :
    countNL (indentFor lvl b) = 0 := by
  rw [indentFor]
  split
  · rfl
  · rw [countNL_append, countNL_repeatStr_spaces]
    cases b <;> rfl

theorem countNL_toFixed1KB (sz : Nat) : countNL (toFixed1KB sz) = 0 := by
  simp only [toFixed1KB]
  rw [countNL_append, countNL_append, countNL_toString_nat,
    countNL_toString_nat]
  rfl

theorem countNL_sizeSuffix (e : FileEntry) : countNL (sizeSuffix e) = 0 := by
  cases e with
  | file n p c sz =>
      rw [sizeSuffix]
      split
      · rw [countNL_append, countNL_append, countNL_toFixed1KB]
        rfl
      · rfl
  | dir n p cs => rfl

/-- Every node of a child is a node of the parent directory. -/
theorem nodesOf_child_subset (n p : String) (cs : List FileEntry)
    (c : FileEntry) (hc : c ∈ cs) :
    ∀ x ∈ nodesOf c, x ∈ nodesOf (.dir n p cs) := by
  intro x hx
  rw [nodesOf_dir]
  exact List.mem_cons_of_mem _
    (List.mem_flatten.mpr ⟨nodesOf c, List.mem_map_of_mem _ hc, hx⟩)

/-- If no node name contains a newline, no rendered line does. -/
theorem renderLines_countNL :
    ∀ e : FileEntry, (∀ x ∈ nodesOf e, countNL x.name = 0) →
      ∀ (lvl : Nat) (la : Bool), ∀ l ∈ renderLines e lvl la,
        countNL l = 0 := by
  intro e
  induction e using FileEntry.inductionOn with
  | hf n p c sz =>
      intro hn lvl la l hl
      rw [renderLines.eq_def] at hl
      rcases List.mem_singleton.mp (by simpa using hl) with rfl
      rw [countNL_append, countNL_append, countNL_indentFor,
        countNL_sizeSuffix,
        hn (.file n p c sz) (by rw [nodesOf]; exact List.mem_singleton.mpr rfl)]
  | hd n p cs ih =>
      intro hn lvl la l hl
      rw [renderLines.eq_def] at hl
      rcases List.mem_cons.mp hl with rfl | hmem
      · rw [countNL_append, countNL_append, countNL_indentFor,
          countNL_sizeSuffix,
          hn (.dir n p cs) (by rw [nodesOf_dir]; exact List.mem_cons_self _ _)]
      · have hsub : ∀ c ∈ cs, ∀ (lv : Nat) (lb : Bool),
            ∀ l' ∈ renderLines c lv lb, countNL l' = 0 := by
          intro c hc lv lb l' hl'
          exact ih c hc
            (fun x hx => hn x (nodesOf_child_subset n p cs c hc x hx)) lv lb
            l' hl'
        have hm : l ∈ renderLinesList cs (lvl + 1) := hmem
        clear hl ih hn hmem
        revert hsub hm
        induction cs with
        | nil => intro _ hm; exact absurd hm (List.not_mem_nil l)
        | cons c rest ihr =>
            intro hsub hm
            rcases List.mem_append.mp hm with h1 | h2
            · exact hsub c (List.mem_cons_self c rest) (lvl + 1) rest.isEmpty
                l h1
            · exact ihr
                (fun x hx lv lb l' hl' =>
                  hsub x (List.mem_cons_of_mem c hx) lv lb l' hl') h2

/-- Newline-free lines joined by `unlines` contain exactly one newline
per line. -/
theorem countNL_unlines :
    ∀ L : List String, (∀ l ∈ L, countNL l = 0) →
      countNL (unlines L) = L.length := by
  intro L
  induction L with
  | nil => intro _; rfl
  | cons l r ih =>
      intro h
      rw [unlines, countNL_append, countNL_append,
        h l (List.mem_cons_self l r),
        ih (fun x hx => h x (List.mem_cons_of_mem l hx)), List.length_cons]
      have h1 : countNL "\n" = 1 := by decide
      omega

/-- A line carrying a connector: some spaces, a `└─ `/`├─ ` connector,
then the rest of the line. -/
def connectorLine (l : String) : Prop :=
  ∃ (k : Nat) (b : Bool) (s : String),
    l = repeatStr "  " k ++ (if b then "└─ " else "├─ ") ++ s

/-- At positive depth every rendered line carries a connector. -/
theorem renderLines_connector :
    ∀ e : FileEntry, ∀ (lvl : Nat) (la : Bool), 1 ≤ lvl →
      ∀ l ∈ renderLines e lvl la, connectorLine l := by
  intro e
  induction e using FileEntry.inductionOn with
  | hf n p c sz =>
      intro lvl la hlvl l hl
      rw [renderLines.eq_def] at hl
      rcases List.mem_singleton.mp (by simpa using hl) with rfl
      refine ⟨lvl - 1, la, (FileEntry.file n p c sz).name ++
        sizeSuffix (.file n p c sz), ?_⟩
      rw [indentFor, if_neg (by simp; omega),
        String.append_assoc (repeatStr "  " (lvl - 1) ++
          (if la then "└─ " else "├─ "))]
  | hd n p cs ih =>
      intro lvl la hlvl l hl
      rw [renderLines.eq_def] at hl
      rcases List.mem_cons.mp hl with rfl | hmem
      · refine ⟨lvl - 1, la, (FileEntry.dir n p cs).name ++
          sizeSuffix (.dir n p cs), ?_⟩
        rw [indentFor, if_neg (by simp; omega),
          String.append_assoc (repeatStr "  " (lvl - 1) ++
            (if la then "└─ " else "├─ "))]
      · have hsub : ∀ c ∈ cs, ∀ (lv : Nat) (lb : Bool), 1 ≤ lv →
            ∀ l' ∈ renderLines c lv lb, connectorLine l' := by
          intro c hc lv lb hlv l' hl'
          exact ih c hc lv lb hlv l' hl'
        have hm : l ∈ renderLinesList cs (lvl + 1) := hmem
        clear hl ih hmem
        revert hsub hm
        induction cs with
        | nil => intro _ hm; exact absurd hm (List.not_mem_nil l)
        | cons c rest ihr =>
            intro hsub hm
            rcases List.mem_append.mp hm with h1 | h2
            · exact hsub c (List.mem_cons_self c rest) (lvl + 1) rest.isEmpty
                (by omega) l h1
            · exact ihr
                (fun x hx lv lb hlv l' hl' =>
                  hsub x (List.mem_cons_of_mem c hx) lv lb hlv l' hl') h2

/-- The root's rendered line has no indentation: it is just the name and
the size suffix. -/
theorem renderLines_headq (e : FileEntry) (la : Bool) :
    (renderLines e 0 la).head? = some (e.name ++ sizeSuffix e) := by
  rw [renderLines.eq_def]
  rfl

/-- C8: for a tree whose node names contain no newline, the renderer's
output is its line-by-line view with one newline per line; the output
contains exactly `nodeCount` newline-terminated lines; the first line —
the root's — is bare `name ++ sizeSuffix` with no connector, and every
other line carries an indentation-and-connector prefix. -/
theorem C8_one_line_per_node (t : FileEntry)
    (hwf : ∀ x ∈ nodesOf t, countNL x.name = 0) :
    countNL (generateTreeText t 0 true) = nodeCount t
    ∧ generateTreeText t 0 true = unlines (renderLines t 0 true)
    ∧ (renderLines t 0 true).head? = some (t.name ++ sizeSuffix t)
    ∧ ∀ l ∈ (renderLines t 0 true).tail, connectorLine l := by
  have hu := tree_unlines t 0 true
  have hlen := renderLines_length t 0 true
  have hnl := renderLines_countNL t hwf 0 true
  refine ⟨?_, hu, renderLines_headq t true, ?_⟩
  · rw [hu, countNL_unlines _ hnl, hlen]
    rfl
  · intro l hl
    cases t with
    | file n p c sz =>
        rw [renderLines.eq_def] at hl
        exact absurd hl (List.not_mem_nil l)
    | dir n p cs =>
        rw [renderLines.eq_def] at hl
        have hm : l ∈ renderLinesList cs 1 := hl
        clear hl hu hlen hnl hwf
        revert hm
        induction cs with
        | nil => intro hm; exact absurd hm (List.not_mem_nil l)
        | cons c rest ihr =>
            intro hm
            rcases List.mem_append.mp hm with h1 | h2
            · exact renderLines_connector c 1 rest.isEmpty le_rfl l h1
            · exact ihr h2

/-- Witness for C8 on a directory with one sized file child. -/
theorem C8_one_line_per_node_witness :
    countNL (generateTreeText
      (.dir "p" "/p" [.file "a" "/p/a" "x" 2048]) 0 true) =
      nodeCount (.dir "p" "/p" [.file "a" "/p/a" "x" 2048])
    ∧ (renderLines (.dir "p" "/p" [.file "a" "/p/a" "x" 2048]) 0
        true).head? = some ("p" ++ sizeSuffix
          (.dir "p" "/p" [.file "a" "/p/a" "x" 2048]))
    ∧ connectorLine "└─ a (2.0 KB)" := by
  have hwf : ∀ x ∈ nodesOf (FileEntry.dir "p" "/p"
      [.file "a" "/p/a" "x" 2048]), countNL x.name = 0 := by
    intro x hx
    rw [nodesOf_dir] at hx
    simp only [List.map_cons, List.map_nil, nodesOf, List.flatten_cons,
      List.flatten_nil, List.append_nil, List.mem_cons,
      List.mem_singleton] at hx
    rcases hx with rfl | rfl | h0
    · decide
    · decide
    · exact absurd h0 (List.not_mem_nil x)
  have h := C8_one_line_per_node (.dir "p" "/p" [.file "a" "/p/a" "x" 2048])
    hwf
  refine ⟨h.1, h.2.2.1, h.2.2.2 "└─ a (2.0 KB)" ?_⟩
  rw [renderLines.eq_def]
  show "└─ a (2.0 KB)" ∈ renderLinesList [.file "a" "/p/a" "x" 2048] 1
  rw [renderLinesList, renderLines.eq_def]
  exact List.mem_append_left _ (by decide)

end FolderTextExtractor
